import Mathlib

/-!
Verification of the `GenericKey` fixed-width order-preserving key encoding
(`indexkey.h`).

A key is modelled as a `List Nat` of bytes (each `< 256`), of length
`keySize * 8`.  The C++ operations are shallowly embedded:

* `SignFlip` acts on the `8*w`-bit pattern of an integer: XOR with the mask
  `2^(8*w-1)` (the C++ `data ^ mask`).
* `ToBigEndian` followed by `memcpy` of the `w`-byte value lays the bytes of
  the (unsigned) value out most-significant first; this composition is
  `ToBigEndianBytes`.  Reading the slice back and applying `ToHostEndian`
  yields the big-endian interpretation of the bytes: `FromBigEndianBytes`.
  Both compositions are host-endianness independent, which is why the model
  needs no endianness parameter.
* Signed values are handled on their twos-complement bit patterns via
  `toUnsigned` / `toSigned`.
* `Compare` is `memcmp` on the byte lists (result normalised to -1/0/1,
  which is all `memcmp` guarantees).
-/

namespace IndexKey

/-- memcmp semantics on byte lists: sign of the first differing byte,
scanning left to right; 0 when no byte differs. -/
def memcmp : List Nat → List Nat → Int
  | [], _ => 0
  | _ :: _, [] => 0
  | a :: as, b :: bs => if a < b then -1 else if b < a then 1 else memcmp as bs

/-- Big-endian byte serialization of a `w`-byte unsigned value: models
`ToBigEndian` (htobe) followed by `memcpy` of the `w`-byte result.  Byte `0`
is the most significant. -/
def ToBigEndianBytes : Nat → Nat → List Nat
  | 0, _ => []
  | w + 1, v => v / 2 ^ (8 * w) % 256 :: ToBigEndianBytes w v

/-- Reading a big-endian byte slice back as an unsigned value: models the
load of the `w`-byte slice followed by `ToHostEndian` (beXXtoh). -/
def FromBigEndianBytes (bs : List Nat) : Nat :=
  bs.foldl (fun acc b => acc * 256 + b) 0

/-- Source `SignFlip` on the `8*w`-bit pattern: `data ^ mask` with
`mask = 1 << (8*w - 1)`. -/
def SignFlip (w u : Nat) : Nat := u ^^^ 2 ^ (8 * w - 1)

/-- Twos-complement bit pattern of a signed `8*w`-bit value. -/
def toUnsigned (w : Nat) (a : Int) : Nat := (a % (2 : Int) ^ (8 * w)).toNat

/-- Reinterpret an `8*w`-bit pattern as a signed value (twos complement). -/
def toSigned (w : Nat) (u : Nat) : Int :=
  if u < 2 ^ (8 * w - 1) then (u : Int) else (u : Int) - (2 : Int) ^ (8 * w)

/-- Overwrite the bytes `[off, off + bs.length)` of a buffer (`memcpy` into
`data + off`). -/
def writeBytes (k : List Nat) (off : Nat) (bs : List Nat) : List Nat :=
  k.take off ++ bs ++ k.drop (off + bs.length)

/-- Read the `w` bytes starting at `off`. -/
def readBytes (k : List Nat) (off w : Nat) : List Nat :=
  (k.drop off).take w

/-- Source constant `key_size_byte = keySize * 8`. -/
def key_size_byte (keySize : Nat) : Nat := keySize * 8

/-- Source `ZeroOut()`: all `keySize * 8` bytes set to zero (`memset 0`). -/
def ZeroOut (keySize : Nat) : List Nat := List.replicate (key_size_byte keySize) 0

/-- The default constructor `GenericKey()` calls `ZeroOut()`. -/
def newGenericKey (keySize : Nat) : List Nat := ZeroOut keySize

/-- Source `AddInteger<IntType>(data, offset)` for a signed type of byte width `w`:
sign-flip the bit pattern, convert to big-endian, `memcpy` at `offset`. -/
def AddInteger (w : Nat) (k : List Nat) (a : Int) (off : Nat) : List Nat :=
  writeBytes k off (ToBigEndianBytes w (SignFlip w (toUnsigned w a)))

/-- Source `AddUnsignedInteger<IntType>(data, offset)` for an unsigned type of byte
width `w`: convert to big-endian, `memcpy` at `offset` (no sign flip). -/
def AddUnsignedInteger (w : Nat) (k : List Nat) (v : Nat) (off : Nat) : List Nat :=
  writeBytes k off (ToBigEndianBytes w v)

/-- Source `GetInteger<IntType>(offset)`: load the slice, convert to host order,
sign-flip again, reinterpret as signed. -/
def GetInteger (w : Nat) (k : List Nat) (off : Nat) : Int :=
  toSigned w (SignFlip w (FromBigEndianBytes (readBytes k off w)))

/-- Source `GetUnsignedInteger<IntType>(offset)`: load the slice, convert to host
order. -/
def GetUnsignedInteger (w : Nat) (k : List Nat) (off : Nat) : Nat :=
  FromBigEndianBytes (readBytes k off w)

/-- Source `Compare(a, b)`: `memcmp` over the whole buffers. -/
def Compare (a b : List Nat) : Int := memcmp a b

/-- Source `LessThan(a, b) = Compare(a, b) < 0`. -/
def LessThan (a b : List Nat) : Bool := Compare a b < 0

/-- Source `Equals(a, b) = Compare(a, b) == 0`. -/
def Equals (a b : List Nat) : Bool := Compare a b == 0

/-- The member `operator<`: direct `memcmp < 0`. -/
def opLess (a b : List Nat) : Bool := memcmp a b < 0

/-- The member `operator>`: direct `memcmp > 0`. -/
def opGreater (a b : List Nat) : Bool := memcmp a b > 0

/-- The member `operator==`: direct `memcmp == 0`. -/
def opEq (a b : List Nat) : Bool := memcmp a b == 0

/-- The derived `operator!= = !(*this == other)`. -/
def opNe (a b : List Nat) : Bool := !(opEq a b)

/-- The derived `operator<= = !(*this > other)`. -/
def opLe (a b : List Nat) : Bool := !(opGreater a b)

/-- The derived `operator>= = !(*this < other)`. -/
def opGe (a b : List Nat) : Bool := !(opLess a b)

/-- Source `GenericHasher::operator()`: ignores the key, returns `0`. -/
def GenericHasher (_lhs : List Nat) : Nat := 0

/-- The std::getline token splitting on the comma delimiter: yields the maximal
comma-free segments; an empty input yields no token, and a trailing comma
yields no trailing empty token. -/
def splitGetline : List Char → List (List Char)
  | [] => []
  | c :: cs =>
    if c = ',' then [] :: splitGetline cs
    else
      match splitGetline cs with
      | [] => [[c]]
      | t :: ts => (c :: t) :: ts

/-- The std::stoul conversion on a decimal digit token (the only shape `setFromString`
is specified on). -/
def stoul (t : List Char) : Nat :=
  t.foldl (fun a c => a * 10 + (c.toNat - 48)) 0

/-- The `while (getline(...))` loop body of `setFromString`: pack the token
as a `uint64_t` at slot `i`, then `if (++i >= keySize) break`. -/
def setFromStringLoop (keySize : Nat) (k : List Nat) (i : Nat) :
    List (List Char) → List Nat
  | [] => k
  | t :: ts =>
    let k2 := AddUnsignedInteger 8 k (stoul t) (i * 8)
    if i + 1 ≥ keySize then k2 else setFromStringLoop keySize k2 (i + 1) ts

/-- Source `setFromString(key)`: first `ZeroOut()` (discarding the prior buffer
contents), then the getline loop.  The prior buffer state is an explicit
argument of the state-passing embedding. -/
def setFromString (keySize : Nat) (_prior : List Nat) (s : List Char) : List Nat :=
  setFromStringLoop keySize (ZeroOut keySize) 0 (splitGetline s)

/-! ### Arithmetic facts about `SignFlip` -/

theorem xor_two_pow_of_lt (k : Nat) : ∀ u : Nat, u < 2 ^ k → u ^^^ 2 ^ k = u + 2 ^ k := by
  induction k with
  | zero =>
    intro u hu
    interval_cases u
    decide
  | succ k ih =>
    intro u hu
    have h2 : (2 : Nat) ^ (k + 1) = 2 * 2 ^ k := by rw [pow_succ, Nat.mul_comm]
    have hdecomp : u = Nat.bit u.bodd u.div2 := (Nat.bit_decomp u).symm
    have hpow : (2 : Nat) ^ (k + 1) = Nat.bit false (2 ^ k) := by
      simp [Nat.bit, h2]
    have hdiv : u.div2 < 2 ^ k := by
      rw [Nat.div2_val]; omega
    rw [hdecomp, hpow, Nat.xor_bit, ih u.div2 hdiv]
    cases hb : u.bodd <;> simp [Nat.bit] <;> ring

theorem xor_two_pow_of_ge (k u : Nat) (h1 : 2 ^ k ≤ u) (h2 : u < 2 ^ (k + 1)) :
    u ^^^ 2 ^ k = u - 2 ^ k := by
  have hlt : u - 2 ^ k < 2 ^ k := by
    have : (2 : Nat) ^ (k + 1) = 2 * 2 ^ k := by rw [pow_succ, Nat.mul_comm]
    omega
  have hv : (u - 2 ^ k) ^^^ 2 ^ k = u := by
    rw [xor_two_pow_of_lt k _ hlt]; omega
  calc u ^^^ 2 ^ k = ((u - 2 ^ k) ^^^ 2 ^ k) ^^^ 2 ^ k := by rw [hv]
    _ = (u - 2 ^ k) ^^^ (2 ^ k ^^^ 2 ^ k) := by rw [Nat.xor_assoc]
    _ = u - 2 ^ k := by rw [Nat.xor_self, Nat.xor_zero]

/-- The sign-flipped bit pattern of an in-range signed value `a` is
`a + 2^(8w-1)`: sign flipping turns twos-complement order into unsigned
order by shifting the whole range up by half. -/
theorem signFlip_toUnsigned (w : Nat) (hw : 0 < w) (a : Int)
    (ha1 : -(2 : Int) ^ (8 * w - 1) ≤ a) (ha2 : a < 2 ^ (8 * w - 1)) :
    (SignFlip w (toUnsigned w a) : Int) = a + 2 ^ (8 * w - 1) := by
  have hsplit : 8 * w = (8 * w - 1) + 1 := by omega
  have h2 : (2 : Int) ^ (8 * w) = 2 ^ (8 * w - 1) * 2 := by
    have hp := pow_succ (2 : Int) (8 * w - 1)
    rw [← hsplit] at hp
    exact hp
  have hMpos : (0 : Int) < 2 ^ (8 * w - 1) := by positivity
  rcases le_or_lt 0 a with hpos | hneg
  · have hmod : a % (2 : Int) ^ (8 * w) = a := by
      apply Int.emod_eq_of_lt hpos; omega
    have hlt : a.toNat < 2 ^ (8 * w - 1) := by
      have : ((2 : Nat) ^ (8 * w - 1) : Int) = (2 : Int) ^ (8 * w - 1) := by push_cast; rfl
      omega
    unfold SignFlip toUnsigned
    rw [hmod, xor_two_pow_of_lt _ _ hlt]
    push_cast
    omega
  · have hmod : a % (2 : Int) ^ (8 * w) = a + 2 ^ (8 * w) := by
      have h1 : (a + 2 ^ (8 * w)) % (2 : Int) ^ (8 * w) = a % 2 ^ (8 * w) := by
        simp [Int.add_mul_emod_self_left]
      rw [← h1]
      apply Int.emod_eq_of_lt <;> omega
    have hcast : ((2 : Nat) ^ (8 * w - 1) : Int) = (2 : Int) ^ (8 * w - 1) := by
      push_cast; rfl
    have hge : 2 ^ (8 * w - 1) ≤ (a + 2 ^ (8 * w)).toNat := by omega
    have hlt : (a + 2 ^ (8 * w)).toNat < 2 ^ ((8 * w - 1) + 1) := by
      rw [← hsplit]
      have : ((2 : Nat) ^ (8 * w) : Int) = (2 : Int) ^ (8 * w) := by push_cast; rfl
      omega
    unfold SignFlip toUnsigned
    rw [hmod, xor_two_pow_of_ge _ _ hge hlt]
    omega

/-- The sign-flipped pattern of an in-range value fits in `8*w` bits. -/
theorem signFlip_toUnsigned_lt (w : Nat) (hw : 0 < w) (a : Int)
    (ha1 : -(2 : Int) ^ (8 * w - 1) ≤ a) (ha2 : a < 2 ^ (8 * w - 1)) :
    SignFlip w (toUnsigned w a) < 2 ^ (8 * w) := by
  have h := signFlip_toUnsigned w hw a ha1 ha2
  have hsplit : 8 * w = (8 * w - 1) + 1 := by omega
  have h2 : (2 : Int) ^ (8 * w) = 2 ^ (8 * w - 1) * 2 := by
    have hp := pow_succ (2 : Int) (8 * w - 1)
    rw [← hsplit] at hp
    exact hp
  have hcast : ((2 : Nat) ^ (8 * w) : Int) = (2 : Int) ^ (8 * w) := by push_cast; rfl
  have hcast1 : ((2 : Nat) ^ (8 * w - 1) : Int) = (2 : Int) ^ (8 * w - 1) := by push_cast; rfl
  omega

/-! ### Facts about the big-endian byte serialization -/

theorem ToBigEndianBytes_length (w v : Nat) : (ToBigEndianBytes w v).length = w := by
  induction w generalizing v with
  | zero => rfl
  | succ w ih => simp [ToBigEndianBytes, ih]

theorem ToBigEndianBytes_lt (w v : Nat) : ∀ b ∈ ToBigEndianBytes w v, b < 256 := by
  induction w generalizing v with
  | zero => intro b hb; simp [ToBigEndianBytes] at hb
  | succ w ih =>
    intro b hb
    simp only [ToBigEndianBytes, List.mem_cons] at hb
    rcases hb with hb | hb
    · omega
    · exact ih v b hb

theorem foldl_ToBigEndianBytes (w : Nat) : ∀ v acc : Nat,
    List.foldl (fun acc b => acc * 256 + b) acc (ToBigEndianBytes w v) =
      acc * 2 ^ (8 * w) + v % 2 ^ (8 * w) := by
  induction w with
  | zero =>
    intro v acc
    simp [ToBigEndianBytes, Nat.mod_one]
  | succ w ih =>
    intro v acc
    have hsplit : (2 : Nat) ^ (8 * (w + 1)) = 2 ^ (8 * w) * 256 := by
      have h8 : 8 * (w + 1) = 8 * w + 8 := by ring
      rw [h8, pow_add]
      norm_num
    have hmm : v % (2 ^ (8 * w) * 256) = v % 2 ^ (8 * w) + 2 ^ (8 * w) * (v / 2 ^ (8 * w) % 256) :=
      Nat.mod_mul
    simp only [ToBigEndianBytes, List.foldl_cons]
    rw [ih v (acc * 256 + v / 2 ^ (8 * w) % 256), hsplit, hmm]
    ring

/-- Decoding after encoding yields the value reduced to `8*w` bits. -/
theorem FromBigEndianBytes_ToBigEndianBytes (w v : Nat) :
    FromBigEndianBytes (ToBigEndianBytes w v) = v % 2 ^ (8 * w) := by
  unfold FromBigEndianBytes
  rw [foldl_ToBigEndianBytes w v 0]
  simp

/-- The encoding only depends on the low `8*w` bits. -/
theorem ToBigEndianBytes_mod (w v : Nat) :
    ToBigEndianBytes w (v % 2 ^ (8 * w)) = ToBigEndianBytes w v := by
  induction w generalizing v with
  | zero => rfl
  | succ w ih =>
    have hsplit : (2 : Nat) ^ (8 * (w + 1)) = 2 ^ (8 * w) * 256 := by
      have h8 : 8 * (w + 1) = 8 * w + 8 := by ring
      rw [h8, pow_add]
      norm_num
    have hdvd : (2 : Nat) ^ (8 * w) ∣ 2 ^ (8 * (w + 1)) := by
      rw [hsplit]; exact Dvd.intro 256 rfl
    have hhead : v % 2 ^ (8 * (w + 1)) / 2 ^ (8 * w) % 256 = v / 2 ^ (8 * w) % 256 := by
      rw [hsplit, Nat.mod_mul_right_div_self]
      exact Nat.mod_mod_of_dvd _ (dvd_refl 256)
    have htail : ToBigEndianBytes w (v % 2 ^ (8 * (w + 1))) = ToBigEndianBytes w v :=
      calc ToBigEndianBytes w (v % 2 ^ (8 * (w + 1)))
          = ToBigEndianBytes w (v % 2 ^ (8 * (w + 1)) % 2 ^ (8 * w)) := (ih _).symm
        _ = ToBigEndianBytes w (v % 2 ^ (8 * w)) := by rw [Nat.mod_mod_of_dvd _ hdvd]
        _ = ToBigEndianBytes w v := ih v
    simp only [ToBigEndianBytes, hhead, htail]

/-! ### Facts about memcmp -/

/-- Three-way comparison of naturals, normalised to -1/0/1. -/
def natCmp (x y : Nat) : Int := if x < y then -1 else if y < x then 1 else 0

/-- Three-way comparison of integers, normalised to -1/0/1. -/
def intCmp (x y : Int) : Int := if x < y then -1 else if y < x then 1 else 0

theorem memcmp_self (l : List Nat) : memcmp l l = 0 := by
  induction l with
  | nil => rfl
  | cons a as ih => simp [memcmp, ih]

theorem memcmp_neg (a : List Nat) : ∀ b : List Nat, memcmp b a = -memcmp a b := by
  induction a with
  | nil => intro b; cases b <;> simp [memcmp]
  | cons x xs ih =>
    intro b
    cases b with
    | nil => simp [memcmp]
    | cons y ys =>
      simp only [memcmp]
      split_ifs <;> first | omega | exact ih ys

theorem memcmp_eq_zero_iff (a : List Nat) : ∀ b : List Nat, a.length = b.length →
    (memcmp a b = 0 ↔ a = b) := by
  induction a with
  | nil =>
    intro b hb
    cases b with
    | nil => simp [memcmp]
    | cons y ys => simp at hb
  | cons x xs ih =>
    intro b hb
    cases b with
    | nil => simp at hb
    | cons y ys =>
      simp only [List.length_cons] at hb
      simp only [memcmp, List.cons.injEq]
      split_ifs with h1 h2
      · constructor
        · intro hc; exact absurd hc (by decide)
        · intro hc; omega
      · constructor
        · intro hc; exact absurd hc (by decide)
        · intro hc; omega
      · rw [ih ys (by omega)]
        constructor
        · intro hc; exact ⟨by omega, hc⟩
        · intro hc; exact hc.2

theorem memcmp_append (a1 : List Nat) : ∀ (b1 : List Nat) (a2 b2 : List Nat),
    a1.length = b1.length →
    memcmp (a1 ++ a2) (b1 ++ b2) =
      if memcmp a1 b1 = 0 then memcmp a2 b2 else memcmp a1 b1 := by
  induction a1 with
  | nil =>
    intro b1 a2 b2 hb
    cases b1 with
    | nil => simp [memcmp]
    | cons y ys => simp at hb
  | cons x xs ih =>
    intro b1 a2 b2 hb
    cases b1 with
    | nil => simp at hb
    | cons y ys =>
      simp only [List.length_cons] at hb
      simp only [List.cons_append, memcmp, List.append_eq]
      rw [ih ys a2 b2 (by omega)]
      by_cases h1 : x < y
      · rw [if_pos h1, if_pos h1, if_neg (by decide)]
      · rw [if_neg h1, if_neg h1]
        by_cases h2 : y < x
        · rw [if_pos h2, if_pos h2, if_neg (by decide)]
        · rw [if_neg h2, if_neg h2]

/-- memcmp of two `w`-byte big-endian encodings is the three-way comparison
of the encoded values. -/
theorem memcmp_ToBigEndianBytes (w : Nat) : ∀ x y : Nat, x < 2 ^ (8 * w) → y < 2 ^ (8 * w) →
    memcmp (ToBigEndianBytes w x) (ToBigEndianBytes w y) = natCmp x y := by
  induction w with
  | zero =>
    intro x y hx hy
    interval_cases x
    interval_cases y
    rfl
  | succ w ih =>
    intro x y hx hy
    have hsplit : (2 : Nat) ^ (8 * (w + 1)) = 2 ^ (8 * w) * 256 := by
      have h8 : 8 * (w + 1) = 8 * w + 8 := by ring
      rw [h8, pow_add]
      norm_num
    have hxd : x / 2 ^ (8 * w) < 256 := by
      rw [Nat.div_lt_iff_lt_mul (by positivity)]
      omega
    have hyd : y / 2 ^ (8 * w) < 256 := by
      rw [Nat.div_lt_iff_lt_mul (by positivity)]
      omega
    have hxe := Nat.div_add_mod x (2 ^ (8 * w))
    have hye := Nat.div_add_mod y (2 ^ (8 * w))
    have hxm : x % 2 ^ (8 * w) < 2 ^ (8 * w) := Nat.mod_lt _ (by positivity)
    have hym : y % 2 ^ (8 * w) < 2 ^ (8 * w) := Nat.mod_lt _ (by positivity)
    simp only [ToBigEndianBytes, memcmp]
    rw [Nat.mod_eq_of_lt hxd, Nat.mod_eq_of_lt hyd]
    rcases Nat.lt_trichotomy (x / 2 ^ (8 * w)) (y / 2 ^ (8 * w)) with h | h | h
    · have hxy : x < y := by
        by_contra hcon
        have := Nat.div_le_div_right (c := 2 ^ (8 * w)) (le_of_not_lt hcon)
        omega
      rw [if_pos h]
      unfold natCmp
      rw [if_pos hxy]
    · rw [if_neg (by omega), if_neg (by omega)]
      have htails : memcmp (ToBigEndianBytes w x) (ToBigEndianBytes w y) =
          natCmp (x % 2 ^ (8 * w)) (y % 2 ^ (8 * w)) := by
        rw [← ToBigEndianBytes_mod w x, ← ToBigEndianBytes_mod w y]
        exact ih _ _ hxm hym
      rw [htails]
      have hxy : x = 2 ^ (8 * w) * (x / 2 ^ (8 * w)) + x % 2 ^ (8 * w) := by omega
      have hyy : y = 2 ^ (8 * w) * (y / 2 ^ (8 * w)) + y % 2 ^ (8 * w) := by omega
      rw [h] at hxy
      unfold natCmp
      have hcommon := hxy
      generalize hp : 2 ^ (8 * w) * (y / 2 ^ (8 * w)) = p at hxy hyy
      by_cases h1 : x % 2 ^ (8 * w) < y % 2 ^ (8 * w)
      · rw [if_pos h1, if_pos (by omega)]
      · rw [if_neg h1]
        by_cases h2 : y % 2 ^ (8 * w) < x % 2 ^ (8 * w)
        · rw [if_pos h2, if_neg (by omega), if_pos (by omega)]
        · rw [if_neg h2, if_neg (by omega), if_neg (by omega)]
    · have hxy : y < x := by
        by_contra hcon
        have := Nat.div_le_div_right (c := 2 ^ (8 * w)) (le_of_not_lt hcon)
        omega
      rw [if_neg (by omega), if_pos h]
      unfold natCmp
      rw [if_neg (by omega), if_pos hxy]

/-! ### Facts about buffer reads and writes -/

theorem writeBytes_length (k : List Nat) (off : Nat) (bs : List Nat)
    (h : off + bs.length ≤ k.length) :
    (writeBytes k off bs).length = k.length := by
  simp only [writeBytes, List.length_append, List.length_take, List.length_drop]
  omega

theorem take_writeBytes (k : List Nat) (off : Nat) (bs : List Nat)
    (h : off + bs.length ≤ k.length) :
    (writeBytes k off bs).take (off + bs.length) = k.take off ++ bs := by
  unfold writeBytes
  have hlen : (k.take off ++ bs).length = off + bs.length := by
    simp only [List.length_append, List.length_take]
    omega
  rw [List.take_left' hlen]

theorem readBytes_writeBytes (k : List Nat) (off : Nat) (bs : List Nat)
    (h : off + bs.length ≤ k.length) :
    readBytes (writeBytes k off bs) off bs.length = bs := by
  unfold writeBytes readBytes
  have hlen : (k.take off).length = off := by
    simp only [List.length_take]
    omega
  rw [List.append_assoc, List.drop_left' hlen]
  exact List.take_left bs (k.drop (off + bs.length))

theorem getElem?_writeBytes_frame (k : List Nat) (off : Nat) (bs : List Nat)
    (h : off + bs.length ≤ k.length) (i : Nat) (hi : i < off ∨ off + bs.length ≤ i) :
    (writeBytes k off bs)[i]? = k[i]? := by
  have htl : (k.take off).length = off := by
    simp only [List.length_take]; omega
  unfold writeBytes
  have hal : (k.take off ++ bs).length = off + bs.length := by
    simp only [List.length_append, List.length_take]; omega
  rcases hi with hi | hi
  · rw [List.getElem?_append, hal, if_pos (by omega), List.getElem?_append, htl,
      if_pos hi, List.getElem?_take, if_pos hi]
  · rw [List.getElem?_append, hal, if_neg (by omega), List.getElem?_drop]
    congr 1
    omega

/-- Writing two same-length byte strings at the same offset of the same
buffer: memcmp of the results is memcmp of the strings. -/
theorem memcmp_writeBytes (k : List Nat) (off : Nat) (bs1 bs2 : List Nat)
    (hlen : bs1.length = bs2.length) :
    memcmp (writeBytes k off bs1) (writeBytes k off bs2) = memcmp bs1 bs2 := by
  unfold writeBytes
  rw [← hlen, List.append_assoc, List.append_assoc]
  rw [memcmp_append _ _ _ _ rfl, memcmp_self, if_pos rfl]
  rw [memcmp_append _ _ _ _ hlen, memcmp_self]
  split_ifs with hc
  · rw [hc]
  · rfl

theorem readBytes_ZeroOut (keySize off w : Nat) (h : off + w ≤ key_size_byte keySize) :
    readBytes (ZeroOut keySize) off w = List.replicate w 0 := by
  simp only [ZeroOut, key_size_byte, readBytes] at h ⊢
  rw [List.drop_replicate, List.take_replicate]
  congr 1
  omega

theorem FromBigEndianBytes_replicate_zero (w : Nat) :
    FromBigEndianBytes (List.replicate w 0) = 0 := by
  have key : ∀ (w acc : Nat),
      List.foldl (fun acc b => acc * 256 + b) acc (List.replicate w 0) = acc * 256 ^ w := by
    intro w
    induction w with
    | zero => intro acc; simp
    | succ w ih =>
      intro acc
      simp only [List.replicate_succ, List.foldl_cons]
      rw [ih (acc * 256 + 0)]
      ring
  unfold FromBigEndianBytes
  rw [key w 0]
  simp

/-- Reading a slice only depends on the bytes of the slice. -/
theorem readBytes_congr (r k : List Nat) (off w : Nat)
    (h : ∀ m, off ≤ m → m < off + w → r[m]? = k[m]?) :
    readBytes r off w = readBytes k off w := by
  apply List.ext_getElem?
  intro j
  unfold readBytes
  rw [List.getElem?_take, List.getElem?_take]
  by_cases hj : j < w
  · rw [if_pos hj, if_pos hj, List.getElem?_drop, List.getElem?_drop]
    exact h (off + j) (by omega) (by omega)
  · rw [if_neg hj, if_neg hj]

/-! ### Claim theorems: operators and trivial facets -/

/-- C4: for every pair of keys of the same size parameter, exactly one of
`<`, `==`, `>` holds, and `!=`, `<=`, `>=` are the exact negations of
`==`, `>`, `<` respectively. -/
theorem opOrder_consistency (keySize : Nat) (a b : List Nat)
    (ha : a.length = key_size_byte keySize) (hb : b.length = key_size_byte keySize) :
    ((opLess a b = true ∧ opEq a b = false ∧ opGreater a b = false) ∨
     (opLess a b = false ∧ opEq a b = true ∧ opGreater a b = false) ∨
     (opLess a b = false ∧ opEq a b = false ∧ opGreater a b = true)) ∧
    opNe a b = !(opEq a b) ∧ opLe a b = !(opGreater a b) ∧ opGe a b = !(opLess a b) := by
  refine ⟨?_, rfl, rfl, rfl⟩
  rcases lt_trichotomy (memcmp a b) 0 with h | h | h
  · left
    refine ⟨?_, ?_, ?_⟩ <;> simp [opLess, opEq, opGreater] <;> omega
  · right; left
    refine ⟨?_, ?_, ?_⟩ <;> simp [opLess, opEq, opGreater] <;> omega
  · right; right
    refine ⟨?_, ?_, ?_⟩ <;> simp [opLess, opEq, opGreater] <;> omega

/-- Witness for C4 at two concrete 8-byte keys. -/
theorem opOrder_consistency_witness :
    opLe (ZeroOut 1) (AddUnsignedInteger 1 (ZeroOut 1) 5 0) =
      !(opGreater (ZeroOut 1) (AddUnsignedInteger 1 (ZeroOut 1) 5 0)) :=
  (opOrder_consistency 1 (ZeroOut 1) (AddUnsignedInteger 1 (ZeroOut 1) 5 0)
    (by decide) (by decide)).2.2.1

/-- C5: the directly implemented operators `<`, `==`, `>` agree with the
Compare-derived static functions `LessThan(a,b)`, `Equals(a,b)`,
`LessThan(b,a)`. -/
theorem operators_match_static (keySize : Nat) (a b : List Nat)
    (ha : a.length = key_size_byte keySize) (hb : b.length = key_size_byte keySize) :
    opLess a b = LessThan a b ∧ opEq a b = Equals a b ∧ opGreater a b = LessThan b a := by
  refine ⟨rfl, rfl, ?_⟩
  unfold opGreater LessThan Compare
  rw [memcmp_neg a b]
  rw [decide_eq_decide]
  omega

/-- Witness for C5 at two concrete 8-byte keys. -/
theorem operators_match_static_witness :
    opGreater (AddUnsignedInteger 1 (ZeroOut 1) 5 0) (ZeroOut 1) =
      LessThan (ZeroOut 1) (AddUnsignedInteger 1 (ZeroOut 1) 5 0) :=
  (operators_match_static 1 (AddUnsignedInteger 1 (ZeroOut 1) 5 0) (ZeroOut 1)
    (by decide) (by decide)).2.2

/-- C6: a freshly constructed key is all-zero bytes, of the declared
length, compares equal (both `Equals` and `operator==`) to another freshly
constructed key of the same size, and every in-bounds integer slot decodes
to the value of an all-zero field: `0` for the unsigned decoder and
`-2^(8w-1)` (the signed decode of an all-zero field) for the signed one. -/
theorem fresh_key_zero (keySize : Nat) :
    (∀ x ∈ newGenericKey keySize, x = 0) ∧
    (newGenericKey keySize).length = key_size_byte keySize ∧
    Equals (newGenericKey keySize) (newGenericKey keySize) = true ∧
    opEq (newGenericKey keySize) (newGenericKey keySize) = true ∧
    (∀ w off, 0 < w → off + w ≤ key_size_byte keySize →
      GetUnsignedInteger w (newGenericKey keySize) off = 0 ∧
      GetInteger w (newGenericKey keySize) off = -(2 ^ (8 * w - 1) : Int)) := by
  refine ⟨?_, ?_, ?_, ?_, ?_⟩
  · intro x hx
    exact List.eq_of_mem_replicate hx
  · simp [newGenericKey, ZeroOut]
  · unfold Equals Compare newGenericKey
    rw [memcmp_self]
    rfl
  · unfold opEq newGenericKey
    rw [memcmp_self]
    rfl
  · intro w off hw hoff
    have hread : readBytes (newGenericKey keySize) off w = List.replicate w 0 :=
      readBytes_ZeroOut keySize off w hoff
    have hzero : FromBigEndianBytes (readBytes (newGenericKey keySize) off w) = 0 := by
      rw [hread, FromBigEndianBytes_replicate_zero]
    constructor
    · exact hzero
    · unfold GetInteger
      rw [hzero]
      have hflip : SignFlip w 0 = 2 ^ (8 * w - 1) := by
        unfold SignFlip
        exact Nat.zero_xor _
      rw [hflip]
      unfold toSigned
      rw [if_neg (by omega)]
      have hsplit : 8 * w = (8 * w - 1) + 1 := by omega
      have h2 : (2 : Int) ^ (8 * w) = 2 ^ (8 * w - 1) * 2 := by
        have hp := pow_succ (2 : Int) (8 * w - 1)
        rw [← hsplit] at hp
        exact hp
      have hcast : ((2 : Nat) ^ (8 * w - 1) : Int) = (2 : Int) ^ (8 * w - 1) := by
        push_cast; rfl
      omega

/-- Witness for C6: slot 1 of a fresh 2-slot key decodes as 0 unsigned and
as the minimum `int64_t` signed. -/
theorem fresh_key_zero_witness :
    GetUnsignedInteger 8 (newGenericKey 2) 8 = 0 ∧
    GetInteger 8 (newGenericKey 2) 8 = -(2 ^ (8 * 8 - 1) : Int) :=
  (fresh_key_zero 2).2.2.2.2 8 8 (by decide) (by decide)

/-- C7: keys for which `Equals` holds receive equal `GenericHasher` values
(the hasher is the constant 0). -/
theorem hasher_equal_keys (keySize : Nat) (a b : List Nat)
    (ha : a.length = key_size_byte keySize) (hb : b.length = key_size_byte keySize)
    (heq : Equals a b = true) : GenericHasher a = GenericHasher b := rfl

/-- Witness for C7 at two concrete equal 8-byte keys. -/
theorem hasher_equal_keys_witness :
    GenericHasher (ZeroOut 1) = GenericHasher (List.replicate 8 0) :=
  hasher_equal_keys 1 (ZeroOut 1) (List.replicate 8 0) (by decide) (by decide) (by decide)

/-! ### Claim theorems: encoding correctness -/

theorem SignFlip_SignFlip (w u : Nat) : SignFlip w (SignFlip w u) = u := by
  unfold SignFlip
  rw [Nat.xor_assoc, Nat.xor_self, Nat.xor_zero]

theorem toSigned_toUnsigned (w : Nat) (hw : 0 < w) (a : Int)
    (ha1 : -(2 : Int) ^ (8 * w - 1) ≤ a) (ha2 : a < 2 ^ (8 * w - 1)) :
    toSigned w (toUnsigned w a) = a := by
  have hsplit : 8 * w = (8 * w - 1) + 1 := by omega
  have h2 : (2 : Int) ^ (8 * w) = 2 ^ (8 * w - 1) * 2 := by
    have hp := pow_succ (2 : Int) (8 * w - 1)
    rw [← hsplit] at hp
    exact hp
  have hcast1 : ((2 : Nat) ^ (8 * w - 1) : Int) = (2 : Int) ^ (8 * w - 1) := by
    push_cast; rfl
  have hcast2 : ((2 : Nat) ^ (8 * w) : Int) = (2 : Int) ^ (8 * w) := by
    push_cast; rfl
  unfold toSigned toUnsigned
  rcases le_or_lt 0 a with hpos | hneg
  · have hmod : a % (2 : Int) ^ (8 * w) = a := by
      apply Int.emod_eq_of_lt hpos; omega
    rw [hmod, if_pos (by omega)]
    omega
  · have hmod : a % (2 : Int) ^ (8 * w) = a + 2 ^ (8 * w) := by
      have h1 : (a + 2 ^ (8 * w)) % (2 : Int) ^ (8 * w) = a % 2 ^ (8 * w) := by
        simp [Int.add_mul_emod_self_left]
      rw [← h1]
      apply Int.emod_eq_of_lt <;> omega
    rw [hmod, if_neg (by omega)]
    omega

/-- C1: for a signed integer type of byte width 1, 2, 4 or 8 and two
in-range values `a`, `b` packed by `AddInteger` at the same in-bounds
offset of the same base key, `a < b` holds iff `Compare` of the two
resulting keys is negative.  The range hypotheses cover the whole
representable range of the type, so in particular the zero crossing and
the extremal values. -/
theorem addInteger_order_preserving (keySize w : Nat)
    (hw : w = 1 ∨ w = 2 ∨ w = 4 ∨ w = 8)
    (k : List Nat) (hk : k.length = key_size_byte keySize)
    (off : Nat) (hoff : off + w ≤ key_size_byte keySize)
    (a b : Int)
    (ha1 : -(2 : Int) ^ (8 * w - 1) ≤ a) (ha2 : a < 2 ^ (8 * w - 1))
    (hb1 : -(2 : Int) ^ (8 * w - 1) ≤ b) (hb2 : b < 2 ^ (8 * w - 1)) :
    a < b ↔ Compare (AddInteger w k a off) (AddInteger w k b off) < 0 := by
  have hw0 : 0 < w := by rcases hw with h | h | h | h <;> omega
  have hua := signFlip_toUnsigned w hw0 a ha1 ha2
  have hub := signFlip_toUnsigned w hw0 b hb1 hb2
  have hual := signFlip_toUnsigned_lt w hw0 a ha1 ha2
  have hubl := signFlip_toUnsigned_lt w hw0 b hb1 hb2
  unfold Compare AddInteger
  rw [memcmp_writeBytes _ _ _ _ (by rw [ToBigEndianBytes_length, ToBigEndianBytes_length])]
  rw [memcmp_ToBigEndianBytes w _ _ hual hubl]
  unfold natCmp
  split_ifs with h1 h2 <;> omega

/-- Witness for C1 at width 1 across the zero crossing: -1 vs 0. -/
theorem addInteger_order_preserving_witness :
    (-1 : Int) < 0 ↔
      Compare (AddInteger 1 (ZeroOut 1) (-1) 0) (AddInteger 1 (ZeroOut 1) 0 0) < 0 :=
  addInteger_order_preserving 1 1 (Or.inl rfl) (ZeroOut 1) (by decide) 0 (by decide)
    (-1) 0 (by decide) (by decide) (by decide) (by decide)

/-- C2: packing then unpacking at the same in-bounds offset with the same
type recovers the value exactly: `GetInteger` after `AddInteger` for every
representable signed value, and `GetUnsignedInteger` after
`AddUnsignedInteger` for every representable unsigned value. -/
theorem add_get_roundtrip (keySize w : Nat)
    (hw : w = 1 ∨ w = 2 ∨ w = 4 ∨ w = 8)
    (k : List Nat) (hk : k.length = key_size_byte keySize)
    (off : Nat) (hoff : off + w ≤ key_size_byte keySize)
    (a : Int) (ha1 : -(2 : Int) ^ (8 * w - 1) ≤ a) (ha2 : a < 2 ^ (8 * w - 1))
    (v : Nat) (hv : v < 2 ^ (8 * w)) :
    GetInteger w (AddInteger w k a off) off = a ∧
    GetUnsignedInteger w (AddUnsignedInteger w k v off) off = v := by
  have hw0 : 0 < w := by rcases hw with h | h | h | h <;> omega
  have hread : ∀ x : Nat, readBytes (writeBytes k off (ToBigEndianBytes w x)) off w =
      ToBigEndianBytes w x := by
    intro x
    have hlen : (ToBigEndianBytes w x).length = w := ToBigEndianBytes_length w x
    have hr := readBytes_writeBytes k off (ToBigEndianBytes w x)
      (by rw [hlen]; unfold key_size_byte at hk hoff; omega)
    rw [hlen] at hr
    exact hr
  constructor
  · have hual := signFlip_toUnsigned_lt w hw0 a ha1 ha2
    unfold GetInteger AddInteger
    rw [hread, FromBigEndianBytes_ToBigEndianBytes, Nat.mod_eq_of_lt hual,
      SignFlip_SignFlip]
    exact toSigned_toUnsigned w hw0 a ha1 ha2
  · unfold GetUnsignedInteger AddUnsignedInteger
    rw [hread, FromBigEndianBytes_ToBigEndianBytes, Nat.mod_eq_of_lt hv]

/-- Witness for C2 at width 2, signed value -300 and unsigned value 40000,
offset 2 of a 1-slot key. -/
theorem add_get_roundtrip_witness :
    GetInteger 2 (AddInteger 2 (ZeroOut 1) (-300) 2) 2 = -300 ∧
    GetUnsignedInteger 2 (AddUnsignedInteger 2 (ZeroOut 1) 40000 2) 2 = 40000 :=
  add_get_roundtrip 1 2 (Or.inr (Or.inl rfl)) (ZeroOut 1) (by decide) 2 (by decide)
    (-300) (by decide) (by decide) 40000 (by decide)

/-- C9: `AddInteger` and `AddUnsignedInteger` modify only the `w` bytes
starting at the given in-bounds offset: the buffer keeps its length and
every byte outside `[off, off + w)` is unchanged.  The unpack operations
`GetInteger` / `GetUnsignedInteger` are embedded as pure functions of the
buffer (they return a value and no new buffer), so they leave the buffer
unchanged by construction. -/
theorem add_frame (keySize w : Nat) (k : List Nat)
    (hk : k.length = key_size_byte keySize)
    (off : Nat) (hoff : off + w ≤ key_size_byte keySize) (a : Int) (v : Nat) :
    (AddInteger w k a off).length = k.length ∧
    (AddUnsignedInteger w k v off).length = k.length ∧
    (∀ i, i < off ∨ off + w ≤ i → (AddInteger w k a off)[i]? = k[i]?) ∧
    (∀ i, i < off ∨ off + w ≤ i → (AddUnsignedInteger w k v off)[i]? = k[i]?) := by
  have hb1 : (ToBigEndianBytes w (SignFlip w (toUnsigned w a))).length = w :=
    ToBigEndianBytes_length w _
  have hb2 : (ToBigEndianBytes w v).length = w := ToBigEndianBytes_length w v
  have hin : off + w ≤ k.length := by rw [hk]; exact hoff
  refine ⟨?_, ?_, ?_, ?_⟩
  · exact writeBytes_length k off _ (by rw [hb1]; exact hin)
  · exact writeBytes_length k off _ (by rw [hb2]; exact hin)
  · intro i hi
    exact getElem?_writeBytes_frame k off _ (by rw [hb1]; exact hin) i (by rw [hb1]; exact hi)
  · intro i hi
    exact getElem?_writeBytes_frame k off _ (by rw [hb2]; exact hin) i (by rw [hb2]; exact hi)

/-- Witness for C9: writing a 2-byte field at offset 2 of a 1-slot key
leaves byte 1 unchanged. -/
theorem add_frame_witness :
    (AddInteger 2 (ZeroOut 1) (-300) 2)[1]? = (ZeroOut 1)[1]? :=
  (add_frame 1 2 (ZeroOut 1) (by decide) 2 (by decide) (-300) 7).2.2.1 1 (Or.inl (by decide))

/-! ### Composite keys: a caller-chosen sequence of typed fields packed at
consecutive offsets (increasing, non-overlapping, covering the buffer). -/

/-- One typed field value: a signed or an unsigned integer of byte width
`w`. -/
inductive FieldVal where
  | sgn : Nat → Int → FieldVal
  | usgn : Nat → Nat → FieldVal

/-- Byte width of a field. -/
def fieldWidth : FieldVal → Nat
  | .sgn w _ => w
  | .usgn w _ => w

/-- The encoded bytes of a field, as `AddInteger` / `AddUnsignedInteger`
produce them. -/
def fieldBytes : FieldVal → List Nat
  | .sgn w a => ToBigEndianBytes w (SignFlip w (toUnsigned w a))
  | .usgn w v => ToBigEndianBytes w v

/-- Pack one field at the given offset with the source pack operation of
the matching signedness. -/
def addField (k : List Nat) (off : Nat) : FieldVal → List Nat
  | .sgn w a => AddInteger w k a off
  | .usgn w v => AddUnsignedInteger w k v off

/-- Pack a sequence of fields at consecutive offsets, left to right. -/
def packFields (k : List Nat) : Nat → List FieldVal → List Nat
  | _, [] => k
  | off, f :: fs => packFields (addField k off f) (off + fieldWidth f) fs

/-- Two fields have the same type (signedness and width). -/
def sameShape : FieldVal → FieldVal → Bool
  | .sgn w _, .sgn w2 _ => w == w2
  | .usgn w _, .usgn w2 _ => w == w2
  | _, _ => false

/-- Two field sequences have the same schema, position by position. -/
def sameShapeList : List FieldVal → List FieldVal → Bool
  | [], [] => true
  | f :: fs, g :: gs => sameShape f g && sameShapeList fs gs
  | _, _ => false

/-- The field value is representable in its declared type. -/
def fieldInRange : FieldVal → Bool
  | .sgn w a =>
    decide (0 < w) && decide (-(2 : Int) ^ (8 * w - 1) ≤ a) && decide (a < 2 ^ (8 * w - 1))
  | .usgn w v => decide (0 < w) && decide (v < 2 ^ (8 * w))

/-- Comparison of two same-typed fields under the native order of the type. -/
def fieldCmp : FieldVal → FieldVal → Int
  | .sgn _ a, .sgn _ b => intCmp a b
  | .usgn _ x, .usgn _ y => natCmp x y
  | _, _ => 0

/-- Lexicographic field-by-field comparison, first field dominant. -/
def tupleCmp : List FieldVal → List FieldVal → Int
  | [], _ => 0
  | _ :: _, [] => 0
  | f :: fs, g :: gs => if fieldCmp f g = 0 then tupleCmp fs gs else fieldCmp f g

/-- Total byte width of a field sequence. -/
def fieldsWidth : List FieldVal → Nat
  | [] => 0
  | f :: fs => fieldWidth f + fieldsWidth fs

/-- Concatenation of the encodings of a field sequence. -/
def concatBytes : List FieldVal → List Nat
  | [] => []
  | f :: fs => fieldBytes f ++ concatBytes fs

theorem fieldBytes_length (f : FieldVal) : (fieldBytes f).length = fieldWidth f := by
  cases f <;> simp [fieldBytes, fieldWidth, ToBigEndianBytes_length]

theorem addField_eq (k : List Nat) (off : Nat) (f : FieldVal) :
    addField k off f = writeBytes k off (fieldBytes f) := by
  cases f <;> rfl

theorem sameShape_width (f g : FieldVal) (h : sameShape f g = true) :
    fieldWidth f = fieldWidth g := by
  cases f <;> cases g <;> simp [sameShape] at h <;> simp [fieldWidth, h]

theorem sameShapeList_width (fs : List FieldVal) : ∀ gs : List FieldVal,
    sameShapeList fs gs = true → fieldsWidth fs = fieldsWidth gs := by
  induction fs with
  | nil =>
    intro gs h
    cases gs with
    | nil => rfl
    | cons g gs => simp [sameShapeList] at h
  | cons f fs ih =>
    intro gs h
    cases gs with
    | nil => simp [sameShapeList] at h
    | cons g gs =>
      simp only [sameShapeList, Bool.and_eq_true] at h
      simp only [fieldsWidth, sameShape_width f g h.1, ih gs h.2]

/-- memcmp of the encodings of two same-typed in-range fields is the
field comparison under the native order of the field type. -/
theorem memcmp_fieldBytes (f g : FieldVal) (hs : sameShape f g = true)
    (hf : fieldInRange f = true) (hg : fieldInRange g = true) :
    memcmp (fieldBytes f) (fieldBytes g) = fieldCmp f g := by
  cases f with
  | sgn w a =>
    cases g with
    | sgn w2 b =>
      simp only [sameShape, beq_iff_eq] at hs
      subst hs
      simp only [fieldInRange, Bool.and_eq_true, decide_eq_true_eq] at hf hg
      have hw0 : 0 < w := hf.1.1
      have hua := signFlip_toUnsigned w hw0 a hf.1.2 hf.2
      have hub := signFlip_toUnsigned w hw0 b hg.1.2 hg.2
      have hual := signFlip_toUnsigned_lt w hw0 a hf.1.2 hf.2
      have hubl := signFlip_toUnsigned_lt w hw0 b hg.1.2 hg.2
      simp only [fieldBytes, fieldCmp]
      rw [memcmp_ToBigEndianBytes w _ _ hual hubl]
      unfold natCmp intCmp
      split_ifs <;> omega
    | usgn w2 v => simp [sameShape] at hs
  | usgn w v =>
    cases g with
    | sgn w2 b => simp [sameShape] at hs
    | usgn w2 u =>
      simp only [sameShape, beq_iff_eq] at hs
      subst hs
      simp only [fieldInRange, Bool.and_eq_true, decide_eq_true_eq] at hf hg
      simp only [fieldBytes, fieldCmp]
      exact memcmp_ToBigEndianBytes w _ _ hf.2 hg.2

/-- Packing fields at consecutive offsets that cover the rest of the
buffer is concatenation of their encodings after the untouched prefix. -/
theorem packFields_concat (fs : List FieldVal) : ∀ (k : List Nat) (off : Nat),
    off + fieldsWidth fs = k.length →
    packFields k off fs = k.take off ++ concatBytes fs := by
  induction fs with
  | nil =>
    intro k off h
    simp only [fieldsWidth] at h
    have hoff : off = k.length := by omega
    simp only [packFields, concatBytes, hoff, List.take_length, List.append_nil]
  | cons f fs ih =>
    intro k off h
    simp only [fieldsWidth] at h
    have hw : (fieldBytes f).length = fieldWidth f := fieldBytes_length f
    have hbound : off + (fieldBytes f).length ≤ k.length := by rw [hw]; omega
    have hlen2 : (addField k off f).length = k.length := by
      rw [addField_eq]
      exact writeBytes_length k off _ hbound
    simp only [packFields, concatBytes]
    rw [ih (addField k off f) (off + fieldWidth f) (by rw [hlen2]; omega)]
    rw [addField_eq, ← hw, take_writeBytes k off _ hbound, List.append_assoc]

/-- memcmp of two concatenated same-schema in-range encodings is the
lexicographic tuple comparison. -/
theorem memcmp_concatBytes (fs : List FieldVal) : ∀ gs : List FieldVal,
    sameShapeList fs gs = true →
    (∀ f ∈ fs, fieldInRange f = true) → (∀ g ∈ gs, fieldInRange g = true) →
    memcmp (concatBytes fs) (concatBytes gs) = tupleCmp fs gs := by
  induction fs with
  | nil =>
    intro gs hs _ _
    cases gs with
    | nil => rfl
    | cons g gs => simp [sameShapeList] at hs
  | cons f fs ih =>
    intro gs hs hf hg
    cases gs with
    | nil => simp [sameShapeList] at hs
    | cons g gs =>
      simp only [sameShapeList, Bool.and_eq_true] at hs
      have hlen : (fieldBytes f).length = (fieldBytes g).length := by
        rw [fieldBytes_length, fieldBytes_length]
        exact sameShape_width f g hs.1
      simp only [concatBytes, tupleCmp]
      rw [memcmp_append _ _ _ _ hlen]
      rw [memcmp_fieldBytes f g hs.1 (hf f (by simp)) (hg g (by simp))]
      rw [ih gs hs.2 (fun x hx => hf x (by simp [hx])) (fun x hx => hg x (by simp [hx]))]

/-- C3: for two keys of the same size parameter, each packing the same
schema of fields (same signedness and widths, position by position) at the
same consecutive in-bounds offsets covering the whole buffer, the
lexicographic field-by-field comparison of the tuples (first field
dominant, each field under the order of its own type) equals `Compare` of the
two whole buffers (both normalised to -1/0/1). -/
theorem composite_ordering (keySize : Nat) (fs gs : List FieldVal)
    (hshape : sameShapeList fs gs = true)
    (hf : ∀ f ∈ fs, fieldInRange f = true) (hg : ∀ g ∈ gs, fieldInRange g = true)
    (hcover : fieldsWidth fs = key_size_byte keySize) :
    Compare (packFields (ZeroOut keySize) 0 fs) (packFields (ZeroOut keySize) 0 gs) =
      tupleCmp fs gs := by
  have hzl : (ZeroOut keySize).length = key_size_byte keySize := by
    simp [ZeroOut]
  have hcover2 : fieldsWidth gs = key_size_byte keySize := by
    rw [← sameShapeList_width fs gs hshape]
    exact hcover
  unfold Compare
  rw [packFields_concat fs _ 0 (by rw [hzl]; omega),
    packFields_concat gs _ 0 (by rw [hzl]; omega)]
  simp only [List.take_zero, List.nil_append]
  exact memcmp_concatBytes fs gs hshape hf hg

/-- Witness for C3: a signed 1-byte field followed by an unsigned 7-byte
field; the first field dominates. -/
theorem composite_ordering_witness :
    Compare
      (packFields (ZeroOut 1) 0 [FieldVal.sgn 1 (-5), FieldVal.usgn 7 900])
      (packFields (ZeroOut 1) 0 [FieldVal.sgn 1 3, FieldVal.usgn 7 11]) =
      tupleCmp [FieldVal.sgn 1 (-5), FieldVal.usgn 7 900]
        [FieldVal.sgn 1 3, FieldVal.usgn 7 11] :=
  composite_ordering 1 [FieldVal.sgn 1 (-5), FieldVal.usgn 7 900]
    [FieldVal.sgn 1 3, FieldVal.usgn 7 11] (by decide) (by decide) (by decide) (by decide)

/-! ### setFromString: loop invariant and claims -/

/-- Invariant of the `setFromString` getline loop, by induction over the
remaining tokens: the buffer keeps its length; bytes below slot `i` and at
or beyond slot `i + #tokens` are untouched; and slot `j` holds the
encoding of token `j - i` for every slot the loop reaches. -/
theorem setFromStringLoop_spec (keySize : Nat) (toks : List (List Char)) :
    ∀ (k : List Nat) (i : Nat), k.length = key_size_byte keySize → i < keySize →
    (setFromStringLoop keySize k i toks).length = key_size_byte keySize ∧
    (∀ m, m < i * 8 → (setFromStringLoop keySize k i toks)[m]? = k[m]?) ∧
    (∀ m, (i + toks.length) * 8 ≤ m → (setFromStringLoop keySize k i toks)[m]? = k[m]?) ∧
    (∀ j t, i ≤ j → j < keySize → toks[j - i]? = some t →
      readBytes (setFromStringLoop keySize k i toks) (j * 8) 8 =
        ToBigEndianBytes 8 (stoul t)) := by
  induction toks with
  | nil =>
    intro k i hk _
    refine ⟨hk, fun m _ => rfl, fun m _ => rfl, ?_⟩
    intro j t _ _ ht
    simp at ht
  | cons t ts ih =>
    intro k i hk hi
    simp only [setFromStringLoop]
    have hwb : (ToBigEndianBytes 8 (stoul t)).length = 8 := ToBigEndianBytes_length 8 _
    have hbound : i * 8 + (ToBigEndianBytes 8 (stoul t)).length ≤ k.length := by
      rw [hwb, hk]
      unfold key_size_byte
      omega
    have hk2len : (AddUnsignedInteger 8 k (stoul t) (i * 8)).length = key_size_byte keySize := by
      unfold AddUnsignedInteger
      rw [writeBytes_length k (i * 8) _ hbound]
      exact hk
    have hk2read : readBytes (AddUnsignedInteger 8 k (stoul t) (i * 8)) (i * 8) 8 =
        ToBigEndianBytes 8 (stoul t) := by
      unfold AddUnsignedInteger
      have hr := readBytes_writeBytes k (i * 8) (ToBigEndianBytes 8 (stoul t)) hbound
      rw [hwb] at hr
      exact hr
    have hk2frame : ∀ m, m < i * 8 ∨ i * 8 + 8 ≤ m →
        (AddUnsignedInteger 8 k (stoul t) (i * 8))[m]? = k[m]? := by
      intro m hm
      unfold AddUnsignedInteger
      exact getElem?_writeBytes_frame k (i * 8) _ hbound m (by rw [hwb]; exact hm)
    by_cases hbreak : i + 1 ≥ keySize
    · rw [if_pos hbreak]
      have hieq : i + 1 = keySize := by omega
      refine ⟨hk2len, ?_, ?_, ?_⟩
      · intro m hm
        exact hk2frame m (Or.inl hm)
      · intro m hm
        apply hk2frame m
        right
        simp only [List.length_cons] at hm
        omega
      · intro j t2 hij hjk ht
        have hje : j = i := by omega
        subst hje
        have : j - j = 0 := by omega
        rw [this, List.getElem?_cons_zero] at ht
        injection ht with ht
        subst ht
        exact hk2read
    · rw [if_neg hbreak]
      obtain ⟨L, F1, F2, S⟩ := ih (AddUnsignedInteger 8 k (stoul t) (i * 8)) (i + 1)
        hk2len (by omega)
      refine ⟨L, ?_, ?_, ?_⟩
      · intro m hm
        rw [F1 m (by omega)]
        exact hk2frame m (Or.inl hm)
      · intro m hm
        simp only [List.length_cons] at hm
        rw [F2 m (by omega)]
        apply hk2frame m
        right
        omega
      · intro j t2 hij hjk ht
        by_cases hje : j = i
        · subst hje
          have : j - j = 0 := by omega
          rw [this, List.getElem?_cons_zero] at ht
          injection ht with ht
          subst ht
          have hcongr : readBytes (setFromStringLoop keySize
              (AddUnsignedInteger 8 k (stoul t) (j * 8)) (j + 1) ts) (j * 8) 8 =
              readBytes (AddUnsignedInteger 8 k (stoul t) (j * 8)) (j * 8) 8 := by
            apply readBytes_congr
            intro m hm1 hm2
            exact F1 m (by omega)
          rw [hcongr]
          exact hk2read
        · have hij2 : i + 1 ≤ j := by omega
          have hidx : j - i = (j - (i + 1)) + 1 := by omega
          rw [hidx, List.getElem?_cons_succ] at ht
          exact S j t2 hij2 hjk ht

/-- Slots at or beyond the token count of the input decode as zero: the
loop never writes them, and `setFromString` zeroes the buffer first. -/
theorem setFromString_tail_slots_zero (keySize : Nat) (hks : 0 < keySize)
    (prior : List Nat) (s : List Char) :
    ∀ j, (splitGetline s).length ≤ j → j < keySize →
      GetUnsignedInteger 8 (setFromString keySize prior s) (j * 8) = 0 := by
  intro j hj hjk
  have hzl : (ZeroOut keySize).length = key_size_byte keySize := by simp [ZeroOut]
  obtain ⟨L, F1, F2, S⟩ := setFromStringLoop_spec keySize (splitGetline s)
    (ZeroOut keySize) 0 hzl hks
  unfold setFromString GetUnsignedInteger
  have hcongr : readBytes (setFromStringLoop keySize (ZeroOut keySize) 0 (splitGetline s))
      (j * 8) 8 = readBytes (ZeroOut keySize) (j * 8) 8 := by
    apply readBytes_congr
    intro m hm1 hm2
    exact F2 m (by omega)
  rw [hcongr, readBytes_ZeroOut keySize (j * 8) 8 (by unfold key_size_byte; omega),
    FromBigEndianBytes_replicate_zero]

/-- C8: `setFromString` on a comma-separated string of decimal `uint64_t`
tokens packs the `i`-th token at 8-byte slot `i` for every `i` below both
the token count and `keySize`, stops at the buffer capacity (the buffer
keeps its `keySize * 8` length and no token is packed at or beyond slot
`keySize`), and decoding slot `i` with the unsigned 64-bit decoder yields
the value of the i-th token; slots beyond the token count decode as zero. -/
theorem setFromString_packs (keySize : Nat) (hks : 0 < keySize)
    (prior : List Nat) (s : List Char)
    (hbound : ∀ t ∈ splitGetline s, stoul t < 2 ^ 64) :
    (setFromString keySize prior s).length = key_size_byte keySize ∧
    (∀ i t, i < keySize → (splitGetline s)[i]? = some t →
      GetUnsignedInteger 8 (setFromString keySize prior s) (i * 8) = stoul t) ∧
    (∀ j, (splitGetline s).length ≤ j → j < keySize →
      GetUnsignedInteger 8 (setFromString keySize prior s) (j * 8) = 0) := by
  have hzl : (ZeroOut keySize).length = key_size_byte keySize := by simp [ZeroOut]
  obtain ⟨L, F1, F2, S⟩ := setFromStringLoop_spec keySize (splitGetline s)
    (ZeroOut keySize) 0 hzl hks
  refine ⟨L, ?_, setFromString_tail_slots_zero keySize hks prior s⟩
  intro i t hi ht
  have hr := S i t (Nat.zero_le i) hi (by simpa using ht)
  unfold setFromString GetUnsignedInteger
  rw [hr, FromBigEndianBytes_ToBigEndianBytes, Nat.mod_eq_of_lt]
  have hmem : t ∈ splitGetline s := List.getElem?_mem ht
  have := hbound t hmem
  omega

/-- Witness for C8: text-decoding "1,2,3" into a 3-slot key puts token 1
(value 2) in slot 1. -/
theorem setFromString_packs_witness :
    GetUnsignedInteger 8 (setFromString 3 (ZeroOut 3) ['1', ',', '2', ',', '3']) (1 * 8) =
      stoul ['2'] :=
  (setFromString_packs 3 (by decide) (ZeroOut 3) ['1', ',', '2', ',', '3']
    (by decide)).2.1 1 ['2'] (by decide) (by decide)

/-- C10: the result of `setFromString` is independent of the prior buffer
contents (the call zeroes the buffer before packing), and every 8-byte
slot beyond the slots filled from the tokens decodes as zero. -/
theorem setFromString_prior_independent (keySize : Nat) (hks : 0 < keySize)
    (p1 p2 : List Nat) (s : List Char) :
    setFromString keySize p1 s = setFromString keySize p2 s ∧
    (∀ j, (splitGetline s).length ≤ j → j < keySize →
      GetUnsignedInteger 8 (setFromString keySize p1 s) (j * 8) = 0) :=
  ⟨rfl, setFromString_tail_slots_zero keySize hks p1 s⟩

/-- Witness for C10: packing "5" into a 2-slot key over garbage prior
contents leaves slot 1 decoding as zero. -/
theorem setFromString_prior_independent_witness :
    GetUnsignedInteger 8 (setFromString 2 (List.replicate 16 7) ['5']) (1 * 8) = 0 :=
  (setFromString_prior_independent 2 (by decide) (List.replicate 16 7) (ZeroOut 2)
    ['5']).2 1 (by decide) (by decide)

end IndexKey
